import Mathlib

/-!
# Verification of the documentation-comment parsing engine

This file gives a shallow embedding of the documentation-comment parsing
engine exercised by `unittests/AST/CommentParser.cpp`: a mode-switching
lexer that strips per-line comment decoration and emits a token stream,
and a recursive-descent parser that builds a `FullComment` tree of
paragraphs, block/param commands, inline commands, HTML tags and verbatim
regions.  The engine itself is not part of the provided sources (only its
unit tests are), so the definitions below are modelled from the
specification and validated against the unit tests.

Strings are embedded as `List Char`.  The recursive scanners take an
explicit fuel argument so that every definition is structurally recursive
and evaluates inside the kernel; fuel-sufficiency is proved as a theorem
(the termination claim).
-/

namespace CommentParsing

/-- Modelled from the spec: horizontal whitespace (used for blank-line
detection, word splitting and HTML attribute separation). -/
def wsChar (c : Char) : Bool := c = ' ' || c = '\t'

/-- Modelled from the spec: a decorated line whose stripped content is
empty or whitespace-only is blank and acts as a paragraph break. -/
def isBlankLine (cs : List Char) : Bool := cs.all wsChar

/-- Modelled from the spec: identifier characters for command names and
HTML tag/attribute names. -/
def identChar (c : Char) : Bool := c.isAlphanum

/-- Join a list of lines with a separator (inverse of line splitting). -/
def intercalateC (sep : List Char) : List (List Char) → List Char
  | [] => []
  | [l] => l
  | l :: ls => l ++ sep ++ intercalateC sep ls

/-- Split a character list at newline characters. -/
def splitLinesC : List Char → List (List Char)
  | [] => [[]]
  | c :: cs =>
    if c = '\n' then [] :: splitLinesC cs
    else
      match splitLinesC cs with
      | [] => [[c]]
      | l :: ls => (c :: l) :: ls

/-- Modelled from the spec: remove a trailing block-comment close marker
from the raw comment text, if present. -/
def dropCloseMarker (cs : List Char) : List Char :=
  match cs.reverse with
  | '/' :: '*' :: r => r.reverse
  | _ => cs

/-- Modelled from the spec: strip the decoration of one line-comment line:
leading whitespace, the comment-opening marker `//` and at most one
following adornment character. -/
def stripLineComment (l : List Char) : List Char :=
  match l.dropWhile wsChar with
  | '/' :: '/' :: t =>
    match t with
    | '/' :: t' => t'
    | '!' :: t' => t'
    | _ => t
  | _ => l

/-- Modelled from the spec: strip the decoration of the opening line of a
block comment: the marker `/*` and at most one adornment character. -/
def stripBlockFirst (l : List Char) : List Char :=
  match l.drop 2 with
  | '*' :: t => t
  | '!' :: t => t
  | t => t

/-- Modelled from the spec: strip the decoration of a continuation line of
a block comment: leading whitespace plus at most one `*` marker. -/
def stripBlockCont (l : List Char) : List Char :=
  match l.dropWhile wsChar with
  | '*' :: t => t
  | _ => l

/-- Modelled from the spec: convert decorated raw comment text into the
list of decoration-stripped logical lines. -/
def stripComment (cs : List Char) : List (List Char) :=
  if ['/', '*'].isPrefixOf cs then
    match splitLinesC (dropCloseMarker cs) with
    | [] => []
    | first :: rest => stripBlockFirst first :: rest.map stripBlockCont
  else
    (splitLinesC cs).map stripLineComment

/-! ## Command table -/

/-- Modelled from the spec: the kind of a command in the Command Table:
block, inline (with required argument count), parameter-block,
verbatim-block or verbatim-line. -/
inductive CmdKind where
  | block : CmdKind
  | inlineCmd (arity : Nat) : CmdKind
  | param : CmdKind
  | verbatimBlock : CmdKind
  | verbatimLine : CmdKind
deriving DecidableEq, Repr

/-- Modelled from the spec: the read-only Command Table, instantiated with
the vocabulary exercised by the unit tests.  The closing token of a
verbatim block is synthesized as `end` + name. -/
def commandTable : List (List Char × CmdKind) :=
  [("brief".toList, .block), ("author".toList, .block),
   ("returns".toList, .block), ("return".toList, .block),
   ("param".toList, .param),
   ("c".toList, .inlineCmd 1), ("p".toList, .inlineCmd 1),
   ("a".toList, .inlineCmd 1), ("e".toList, .inlineCmd 1),
   ("em".toList, .inlineCmd 1), ("b".toList, .inlineCmd 1),
   ("verbatim".toList, .verbatimBlock), ("code".toList, .verbatimBlock),
   ("dot".toList, .verbatimBlock),
   ("fn".toList, .verbatimLine), ("var".toList, .verbatimLine),
   ("class".toList, .verbatimLine), ("typedef".toList, .verbatimLine),
   ("namespace".toList, .verbatimLine)]

/-- Modelled from the spec: command name lookup; unknown names are absent
(`none`) and default to inline with zero required arguments. -/
def lookupCommand (name : List Char) : Option CmdKind :=
  commandTable.lookup name

/-! ## Tokens and the lexer -/

/-- Modelled from the spec: the token stream emitted by the lexer. -/
inductive Tok where
  | text (s : List Char) : Tok
  | newline : Tok
  | cmd (name : List Char) : Tok
  | vbBegin (name : List Char) : Tok
  | vbLine (s : List Char) : Tok
  | vbEnd (name : List Char) : Tok
  | vlCmd (name : List Char) (rest : List Char) : Tok
  | htmlStart (tag : List Char) : Tok
  | htmlIdent (s : List Char) : Tok
  | htmlEquals : Tok
  | htmlQuoted (s : List Char) : Tok
  | htmlGreater : Tok
  | htmlSlashGreater : Tok
  | htmlEnd (tag : List Char) : Tok
deriving DecidableEq, Repr

/-- Modelled from the spec: the lexer modes: normal scanning, HTML-tag
scanning, and raw-line mode for verbatim block bodies (carrying the
synthesized closing command name and whether we are still on the opening
line). -/
inductive LexMode where
  | normal : LexMode
  | html : LexMode
  | raw (close : List Char) (first : Bool) : LexMode
deriving DecidableEq, Repr

/-- Does the head of `cs` have an alphabetic character? -/
def firstAlpha (cs : List Char) : Bool :=
  match cs with
  | c :: _ => c.isAlpha
  | [] => false

/-- Modelled from the spec: does the text start a lexical construct (a
command introducer `\`/`@` followed by an identifier, or an HTML tag
opener)?  Ordinary characters accumulate into a `Text` token until such a
position or end of line. -/
def startsConstruct (cs : List Char) : Bool :=
  match cs with
  | c :: rest =>
    ((c = '\\' || c = '@') && firstAlpha rest) ||
    (c = '<' && firstAlpha rest) ||
    (c = '<' && (match rest with | '/' :: r => firstAlpha r | _ => false))
  | [] => false

/-- Scan a maximal run of ordinary text characters, stopping at the next
construct start. -/
def scanText : List Char → List Char × List Char
  | [] => ([], [])
  | c :: cs =>
    if startsConstruct (c :: cs) then ([], c :: cs)
    else (c :: (scanText cs).1, (scanText cs).2)

/-- Modelled from the spec: in raw-line mode, find the first occurrence of
the closing command (introducer character followed by the closing name);
returns the text before it and the remainder after it. -/
def splitAtClose (close : List Char) : List Char → Option (List Char × List Char)
  | [] => none
  | c :: cs =>
    if (c = '\\' || c = '@') && close.isPrefixOf cs then
      some ([], cs.drop close.length)
    else
      match splitAtClose close cs with
      | some (pre, post) => some (c :: pre, post)
      | none => none

/-- Weight of the pending lines, used to bound the lexer's fuel. -/
def linesWeight (ls : List (List Char)) : Nat :=
  (ls.map (fun l => l.length + 2)).sum

/-- Decreasing measure of a lexer state: remaining characters of the
current line, remaining lines, and a bonus for HTML mode. -/
def lexMeasure (mode : LexMode) (cs : List Char) (ls : List (List Char)) : Nat :=
  cs.length + 2 + linesWeight ls + (match mode with | .html => 1 | _ => 0)

/-- Modelled from the spec: the mode-switching lexer.  It walks the
current (decoration-stripped) line `cs` and the following lines `ls`,
emitting tokens; `fuel` makes the recursion structural and is always
called with at least `lexMeasure mode cs ls`. -/
def lexRun : Nat → LexMode → List Char → List (List Char) → List Tok
  | 0, _, _, _ => []
  | fuel + 1, .raw close first, cs, ls =>
    (match splitAtClose close cs with
     | some (pre, post) =>
       (if pre.isEmpty then [] else [.vbLine pre]) ++
       (.vbEnd close :: lexRun fuel .normal post ls)
     | none =>
       (if first && cs.isEmpty then [] else [.vbLine cs]) ++
       (match ls with
        | [] => []
        | l :: ls' => lexRun fuel (.raw close false) l ls'))
  | fuel + 1, .html, cs, ls =>
    (match cs with
     | [] => lexRun fuel .normal [] ls
     | c :: cs' =>
       if wsChar c then lexRun fuel .html cs' ls
       else if c = '>' then .htmlGreater :: lexRun fuel .normal cs' ls
       else if c = '/' && cs'.head? = some '>' then
         .htmlSlashGreater :: lexRun fuel .normal cs'.tail ls
       else if c = '=' then .htmlEquals :: lexRun fuel .html cs' ls
       else if c = '"' then
         .htmlQuoted (cs'.takeWhile (· ≠ '"')) ::
           lexRun fuel .html (cs'.drop ((cs'.takeWhile (· ≠ '"')).length + 1)) ls
       else if c.isAlpha then
         .htmlIdent ((c :: cs').takeWhile identChar) ::
           lexRun fuel .html ((c :: cs').drop ((c :: cs').takeWhile identChar).length) ls
       else lexRun fuel .normal (c :: cs') ls)
  | fuel + 1, .normal, [], ls =>
    (match ls with
     | [] => []
     | l :: ls' =>
       .newline :: lexRun fuel .normal (if isBlankLine l then [] else l) ls')
  | fuel + 1, .normal, c :: cs, ls =>
    if (c = '\\' || c = '@') && firstAlpha cs then
      match lookupCommand (cs.takeWhile identChar) with
      | some .verbatimBlock =>
        .vbBegin (cs.takeWhile identChar) ::
          lexRun fuel (.raw ('e' :: 'n' :: 'd' :: cs.takeWhile identChar) true)
            (cs.drop (cs.takeWhile identChar).length) ls
      | some .verbatimLine =>
        .vlCmd (cs.takeWhile identChar) (cs.drop (cs.takeWhile identChar).length) ::
          lexRun fuel .normal [] ls
      | _ =>
        .cmd (cs.takeWhile identChar) ::
          lexRun fuel .normal (cs.drop (cs.takeWhile identChar).length) ls
    else if c = '<' && firstAlpha cs then
      .htmlStart (cs.takeWhile identChar) ::
        lexRun fuel .html (cs.drop (cs.takeWhile identChar).length) ls
    else if c = '<' && (match cs with | '/' :: r => firstAlpha r | _ => false) then
      match (cs.tail.drop (cs.tail.takeWhile identChar).length).dropWhile wsChar with
      | '>' :: r =>
        .htmlEnd (cs.tail.takeWhile identChar) :: .htmlGreater ::
          lexRun fuel .normal r ls
      | _ =>
        .htmlEnd (cs.tail.takeWhile identChar) ::
          lexRun fuel .normal (cs.tail.drop (cs.tail.takeWhile identChar).length) ls
    else
      .text (c :: (scanText cs).1) :: lexRun fuel .normal (scanText cs).2 ls

/-- Lex a list of stripped lines with a given fuel. -/
def lexLinesWith (fuel : Nat) : List (List Char) → List Tok
  | [] => []
  | l :: ls' => lexRun fuel .normal (if isBlankLine l then [] else l) ls'

/-- Modelled from the spec: lex a list of decoration-stripped lines into
the token stream (with canonical, sufficient fuel). -/
def lexLines (ls : List (List Char)) : List Tok :=
  lexLinesWith (linesWeight ls + 2) ls

/-- Modelled from the spec: full lexing pipeline, raw comment text to
token stream. -/
def tokenize (cs : List Char) : List Tok :=
  lexLines (stripComment cs)

/-! ## The AST -/

/-- Modelled from the spec: parameter passing direction of a `ParamCommand`. -/
inductive PassDirection where
  | In : PassDirection
  | Out : PassDirection
  | InOut : PassDirection
deriving DecidableEq, Repr

/-- Modelled from the spec: the leaves living inside a `Paragraph`: text
(with its trailing-newline flag), inline commands with an optional single
argument, and HTML start/end tags. -/
inductive Inline where
  | text (s : List Char) (trailingNewline : Bool) : Inline
  | inlineCommand (name : List Char) (arg : Option (List Char)) : Inline
  | htmlStartTag (tag : List Char) (attrs : List (List Char × List Char))
      (selfClosing : Bool) : Inline
  | htmlEndTag (tag : List Char) : Inline
deriving DecidableEq, Repr

/-- Modelled from the spec: the block-level children of a `FullComment`.
A `blockCommand`/`paramCommand` owns exactly one paragraph, embedded here
as its list of inline children. -/
inductive Block where
  | paragraph (children : List Inline) : Block
  | blockCommand (name : List Char) (para : List Inline) : Block
  | paramCommand (name : List Char) (direction : PassDirection)
      (directionExplicit : Bool) (paramName : List Char)
      (para : List Inline) : Block
  | verbatimBlock (name : List Char) (lines : List (List Char)) : Block
  | verbatimLine (name : List Char) (rest : List Char) : Block
deriving DecidableEq, Repr

/-- Modelled from the spec: the root node, exactly one per parse. -/
structure FullComment where
  children : List Block
deriving DecidableEq, Repr

/-! ## The parser -/

/-- Modelled from the spec: pull one whitespace-delimited word out of a
text run; fails (consuming nothing) if the text holds no word. -/
def extractWord (cs : List Char) : Option (List Char × List Char) :=
  let t := cs.dropWhile wsChar
  match t with
  | [] => none
  | _ =>
    let w := t.takeWhile (fun c => !wsChar c)
    some (w, t.drop w.length)

/-- Push leftover text back onto the token stream (nothing if empty). -/
def pushText (s : List Char) (rest : List Tok) : List Tok :=
  if s.isEmpty then rest else .text s :: rest

/-- Modelled from the spec: retokenize the next text token into a
whitespace-delimited word (for inline-command and param-name arguments),
pushing any leftover text back onto the stream. -/
def lexWordTok : List Tok → Option (List Char × List Tok)
  | .text s :: rest =>
    match extractWord s with
    | some (w, rem) => some (w, pushText rem rest)
    | none => none
  | _ => none

/-- Split a character list at commas. -/
def splitOnComma : List Char → List (List Char)
  | [] => [[]]
  | c :: cs =>
    if c = ',' then [] :: splitOnComma cs
    else
      match splitOnComma cs with
      | [] => [[c]]
      | l :: ls => (c :: l) :: ls

/-- Remove leading and trailing horizontal whitespace. -/
def trimWs (cs : List Char) : List Char :=
  ((cs.dropWhile wsChar).reverse.dropWhile wsChar).reverse

/-- Modelled from the spec: resolve the contents of a bracketed direction
annotation: both `in` and `out` seen gives `InOut`, only `in` gives `In`,
only `out` gives `Out`; anything else is invalid. -/
def resolveDirection (inner : List Char) : Option PassDirection :=
  let parts := (splitOnComma inner).map trimWs
  if parts.length ≤ 2 &&
     parts.all (fun p => p = "in".toList || p = "out".toList) then
    if "in".toList ∈ parts then
      if "out".toList ∈ parts then some .InOut else some .In
    else some .Out
  else none

/-- Modelled from the spec: parse the optional bracketed direction
annotation after a parameter command; absent (or malformed) annotations
default to `In` with the explicit flag unset. -/
def parseDirection : List Tok → PassDirection × Bool × List Tok
  | .text s :: rest =>
    (match s.dropWhile wsChar with
     | '[' :: t' =>
       if (t'.takeWhile (· ≠ ']')).length = t'.length then
         (.In, false, .text s :: rest)
       else
         match resolveDirection (t'.takeWhile (· ≠ ']')) with
         | some d =>
           (d, true, pushText (t'.drop ((t'.takeWhile (· ≠ ']')).length + 1)) rest)
         | none =>
           (.In, false, pushText (t'.drop ((t'.takeWhile (· ≠ ']')).length + 1)) rest)
     | _ => (.In, false, .text s :: rest))
  | toks => (.In, false, toks)

/-- Modelled from the spec: parse the required parameter-name word of a
parameter command (empty if absent). -/
def parseParamName (toks : List Tok) : List Char × List Tok :=
  match lexWordTok toks with
  | some (w, r) => (w, r)
  | none => ([], toks)

/-- Modelled from the spec: collect the attribute tokens of an HTML start
tag into (name, value) pairs; a missing `=value` clause yields the empty
string, and an unterminated tag keeps whatever was collected with the
self-closing flag unset. -/
def collectAttrs : List Tok → List (List Char × List Char) × Bool × List Tok
  | .htmlIdent n :: .htmlEquals :: .htmlQuoted v :: rest =>
    let (as, sc, r) := collectAttrs rest
    ((n, v) :: as, sc, r)
  | .htmlIdent n :: .htmlEquals :: rest =>
    let (as, sc, r) := collectAttrs rest
    ((n, []) :: as, sc, r)
  | .htmlIdent n :: rest =>
    let (as, sc, r) := collectAttrs rest
    ((n, []) :: as, sc, r)
  | .htmlGreater :: rest => ([], false, rest)
  | .htmlSlashGreater :: rest => ([], true, rest)
  | toks => ([], false, toks)

/-- Modelled from the spec: collect the raw line tokens of a verbatim
block, stopping at the closing token or at end of input (no error). -/
def collectVerbatim : List Tok → List (List Char) × List Tok
  | .vbLine s :: rest =>
    let (ls, r) := collectVerbatim rest
    (s :: ls, r)
  | .vbEnd _ :: rest => ([], rest)
  | toks => ([], toks)

/-- Modelled from the spec: tokens that terminate the current paragraph:
recognized block or parameter commands, and verbatim constructs. -/
def isTerminator (t : Tok) : Bool :=
  match t with
  | .cmd name =>
    (match lookupCommand name with
     | some .block => true
     | some .param => true
     | _ => false)
  | .vbBegin _ => true
  | .vlCmd _ _ => true
  | _ => false

/-- Set the trailing-newline flag on the paragraph's last child if it is
a text node (the accumulator is kept reversed). -/
def markNewline (acc : List Inline) : List Inline :=
  match acc with
  | .text s _ :: as => .text s true :: as
  | _ => acc

/-- Modelled from the spec: parse the contents of one paragraph from the
token stream, stopping at a blank-line break, a block-level command or end
of input.  Returns the children and the unconsumed tokens.  `fuel` makes
the recursion structural; `toks.length + 1` is always sufficient. -/
def parsePara : Nat → List Inline → List Tok → List Inline × List Tok
  | 0, acc, toks => (acc.reverse, toks)
  | _ + 1, acc, [] => (acc.reverse, [])
  | fuel + 1, acc, .newline :: rest =>
    (match rest with
     | [] => (acc.reverse, [])
     | .newline :: rest' => (acc.reverse, rest')
     | t :: _ =>
       if isTerminator t then (acc.reverse, rest)
       else parsePara fuel (markNewline acc) rest)
  | fuel + 1, acc, .text s :: rest => parsePara fuel (.text s false :: acc) rest
  | fuel + 1, acc, .cmd name :: rest =>
    (match lookupCommand name with
     | some .block => (acc.reverse, .cmd name :: rest)
     | some .param => (acc.reverse, .cmd name :: rest)
     | some (.inlineCmd arity) =>
       if arity = 0 then parsePara fuel (.inlineCommand name none :: acc) rest
       else
         match lexWordTok rest with
         | some (w, rest') =>
           parsePara fuel (.inlineCommand name (some w) :: acc) rest'
         | none => parsePara fuel (.inlineCommand name none :: acc) rest
     | _ => parsePara fuel (.inlineCommand name none :: acc) rest)
  | _ + 1, acc, .vbBegin n :: rest => (acc.reverse, .vbBegin n :: rest)
  | _ + 1, acc, .vlCmd n s :: rest => (acc.reverse, .vlCmd n s :: rest)
  | fuel + 1, acc, .htmlStart tag :: rest =>
    parsePara fuel
      (.htmlStartTag tag (collectAttrs rest).1 (collectAttrs rest).2.1 :: acc)
      (collectAttrs rest).2.2
  | fuel + 1, acc, .htmlEnd tag :: rest =>
    (match rest with
     | .htmlGreater :: rest' => parsePara fuel (.htmlEndTag tag :: acc) rest'
     | _ => parsePara fuel (.htmlEndTag tag :: acc) rest)
  | fuel + 1, acc, _ :: rest => parsePara fuel acc rest

/-- Canonical (sufficient) fuel for `parsePara`. -/
def paraFuel (toks : List Tok) : Nat := toks.length + 1

/-- Modelled from the spec: parse one block-level construct from the head
of the token stream: a blank-line break (producing nothing), a verbatim
block or line, a block or parameter command with its paragraph argument,
or a plain paragraph. -/
def parseBlock : List Tok → List Block × List Tok
  | [] => ([], [])
  | .newline :: rest => ([], rest)
  | .vbBegin name :: rest =>
    ([.verbatimBlock name (collectVerbatim rest).1], (collectVerbatim rest).2)
  | .vlCmd name s :: rest => ([.verbatimLine name s], rest)
  | .cmd name :: rest =>
    (match lookupCommand name with
     | some .block =>
       ([.blockCommand name (parsePara (paraFuel rest) [] rest).1],
        (parsePara (paraFuel rest) [] rest).2)
     | some .param =>
       ([.paramCommand name (parseDirection rest).1 (parseDirection rest).2.1
           (parseParamName (parseDirection rest).2.2).1
           (parsePara (paraFuel (parseParamName (parseDirection rest).2.2).2) []
             (parseParamName (parseDirection rest).2.2).2).1],
        (parsePara (paraFuel (parseParamName (parseDirection rest).2.2).2) []
          (parseParamName (parseDirection rest).2.2).2).2)
     | _ =>
       ([.paragraph (parsePara (paraFuel (Tok.cmd name :: rest)) [] (.cmd name :: rest)).1],
        (parsePara (paraFuel (Tok.cmd name :: rest)) [] (.cmd name :: rest)).2))
  | t :: rest =>
    ([.paragraph (parsePara (paraFuel (t :: rest)) [] (t :: rest)).1],
     (parsePara (paraFuel (t :: rest)) [] (t :: rest)).2)

/-- Modelled from the spec: the parser's top-level loop: repeatedly parse
block-level constructs until the tokens are exhausted.  `fuel` makes the
recursion structural; `toks.length + 1` is always sufficient. -/
def parseTopLoop : Nat → List Tok → List Block × List Tok
  | 0, toks => ([], toks)
  | _ + 1, [] => ([], [])
  | fuel + 1, t :: rest =>
    ((parseBlock (t :: rest)).1 ++ (parseTopLoop fuel (parseBlock (t :: rest)).2).1,
     (parseTopLoop fuel (parseBlock (t :: rest)).2).2)

/-- Modelled from the spec: parse a full token stream into the root node. -/
def parseTokens (toks : List Tok) : FullComment :=
  ⟨(parseTopLoop (toks.length + 1) toks).1⟩

/-- Modelled from the spec: the single entry point on raw comment
characters: always succeeds and returns one `FullComment`. -/
def parseComment (cs : List Char) : FullComment :=
  parseTokens (tokenize cs)

/-- Modelled from the spec: `parseFullComment`, the single entry point:
decorated comment text in, one `FullComment` tree out. -/
def parseFullComment (s : String) : FullComment :=
  parseComment s.toList

/-! ## Decorated comment forms

The two decoration styles used by the test fixtures: the line-comment form
prefixes every logical line with `//`, the block-comment form wraps the
lines in a single `/*`-`*/` pair and prefixes continuation lines with
`space *`. -/

/-- The line-decorated form of a list of logical content lines. -/
def lineDecorate (ls : List (List Char)) : List Char :=
  intercalateC ['\n'] (ls.map (fun l => '/' :: '/' :: l))

/-- The block-decorated form of a list of logical content lines. -/
def blockDecorate (ls : List (List Char)) : List Char :=
  match ls with
  | [] => ['/', '*', '*', '/']
  | l0 :: rest =>
    '/' :: '*' ::
      (intercalateC ['\n'] (l0 :: rest.map (fun l => ' ' :: '*' :: l)) ++ ['*', '/'])

/-- Safe logical content line: no embedded newline, and either empty or
starting with a space (so that decoration stripping returns it intact in
both decoration styles). -/
def goodLine (l : List Char) : Prop :=
  '\n' ∉ l ∧ (l = [] ∨ l.head? = some ' ')

instance (l : List Char) : Decidable (goodLine l) := by
  unfold goodLine; infer_instance

/-! ## Lexer measure lemmas and fuel stability -/

theorem takeWhileLen (p : Char → Bool) (l : List Char) :
    (l.takeWhile p).length ≤ l.length := by
  induction l with
  | nil => simp
  | cons c cs ih =>
    simp only [List.takeWhile]
    split <;> simp <;> omega

theorem dropWhileLen (p : Char → Bool) (l : List Char) :
    (l.dropWhile p).length ≤ l.length := by
  induction l with
  | nil => simp
  | cons c cs ih =>
    simp only [List.dropWhile]
    split <;> simp <;> omega

theorem scanText_le (cs : List Char) : (scanText cs).2.length ≤ cs.length := by
  induction cs with
  | nil => simp [scanText]
  | cons c cs ih =>
    simp only [scanText]
    split <;> simp <;> omega

theorem splitAtClose_lt {close : List Char} : ∀ {cs pre post : List Char},
    splitAtClose close cs = some (pre, post) → post.length < cs.length := by
  intro cs
  induction cs with
  | nil =>
    intro pre post h
    rw [splitAtClose.eq_def] at h
    simp at h
  | cons c cs ih =>
    intro pre post h
    rw [splitAtClose.eq_def] at h
    dsimp only at h
    split at h
    · simp only [Option.some.injEq, Prod.mk.injEq] at h
      obtain ⟨rfl, rfl⟩ := h
      simp only [List.length_drop, List.length_cons]
      omega
    · cases hs : splitAtClose close cs with
      | none => rw [hs] at h; simp at h
      | some p =>
        obtain ⟨pre', post'⟩ := p
        rw [hs] at h
        simp only [Option.some.injEq, Prod.mk.injEq] at h
        obtain ⟨rfl, rfl⟩ := h
        have := ih hs
        simp only [List.length_cons]
        omega

theorem linesWeight_nil : linesWeight [] = 0 := rfl

theorem linesWeight_cons (l : List Char) (ls : List (List Char)) :
    linesWeight (l :: ls) = l.length + 2 + linesWeight ls := by
  simp [linesWeight]

theorem lexMeasure_normal (cs : List Char) (ls : List (List Char)) :
    lexMeasure .normal cs ls = cs.length + 2 + linesWeight ls := rfl

theorem lexMeasure_html (cs : List Char) (ls : List (List Char)) :
    lexMeasure .html cs ls = cs.length + 2 + linesWeight ls + 1 := rfl

theorem lexMeasure_raw (close : List Char) (first : Bool) (cs : List Char)
    (ls : List (List Char)) :
    lexMeasure (.raw close first) cs ls = cs.length + 2 + linesWeight ls := rfl

/-- The lexer is insensitive to the exact fuel, provided it covers the
measure of the state: the scan terminates. -/
theorem lexRun_stable (f₁ : Nat) : ∀ (f₂ : Nat) (mode : LexMode) (cs : List Char)
    (ls : List (List Char)), lexMeasure mode cs ls ≤ f₁ →
    lexMeasure mode cs ls ≤ f₂ → lexRun f₁ mode cs ls = lexRun f₂ mode cs ls := by
  induction f₁ with
  | zero =>
    intro f₂ mode cs ls h1 _
    exfalso
    cases mode with
    | normal => rw [lexMeasure_normal] at h1; omega
    | html => rw [lexMeasure_html] at h1; omega
    | raw c f => rw [lexMeasure_raw] at h1; omega
  | succ n ih =>
    intro f₂ mode cs ls h1 h2
    obtain ⟨m, rfl⟩ : ∃ m, f₂ = m + 1 := by
      cases f₂ with
      | zero =>
        exfalso
        cases mode with
        | normal => rw [lexMeasure_normal] at h2; omega
        | html => rw [lexMeasure_html] at h2; omega
        | raw c f => rw [lexMeasure_raw] at h2; omega
      | succ m => exact ⟨m, rfl⟩
    cases mode with
    | raw close first =>
      rw [lexMeasure_raw] at h1 h2
      simp only [lexRun]
      cases hsp : splitAtClose close cs with
      | some p =>
        obtain ⟨pre, post⟩ := p
        have hlt := splitAtClose_lt hsp
        dsimp only
        rw [ih m .normal post ls (by rw [lexMeasure_normal]; omega)
          (by rw [lexMeasure_normal]; omega)]
      | none =>
        cases ls with
        | nil => rfl
        | cons l ls' =>
          rw [linesWeight_cons] at h1 h2
          dsimp only
          rw [ih m (.raw close false) l ls' (by rw [lexMeasure_raw]; omega)
            (by rw [lexMeasure_raw]; omega)]
    | html =>
      rw [lexMeasure_html] at h1 h2
      cases cs with
      | nil =>
        simp only [lexRun]
        exact ih m .normal [] ls (by rw [lexMeasure_normal]; simp at h1 ⊢; omega)
          (by rw [lexMeasure_normal]; simp at h2 ⊢; omega)
      | cons c cs' =>
        simp only [List.length_cons] at h1 h2
        simp only [lexRun]
        split_ifs with hws hgt hsl heqs hquo halp
        · exact ih m .html cs' ls (by rw [lexMeasure_html]; omega)
            (by rw [lexMeasure_html]; omega)
        · rw [ih m .normal cs' ls (by rw [lexMeasure_normal]; omega)
            (by rw [lexMeasure_normal]; omega)]
        · rw [ih m .normal cs'.tail ls
            (by rw [lexMeasure_normal]; simp [List.length_tail]; omega)
            (by rw [lexMeasure_normal]; simp [List.length_tail]; omega)]
        · rw [ih m .html cs' ls (by rw [lexMeasure_html]; omega)
            (by rw [lexMeasure_html]; omega)]
        · have hd : (cs'.drop ((cs'.takeWhile (· ≠ '"')).length + 1)).length ≤ cs'.length := by
            simp [List.length_drop]
          rw [ih m .html (cs'.drop ((cs'.takeWhile (· ≠ '"')).length + 1)) ls
            (by rw [lexMeasure_html]; omega) (by rw [lexMeasure_html]; omega)]
        · have htw : ((c :: cs').takeWhile identChar).length ≥ 1 := by
            rw [List.takeWhile_cons_of_pos (by simp [identChar, Char.isAlphanum, halp])]
            simp
          have hd : ((c :: cs').drop ((c :: cs').takeWhile identChar).length).length
              ≤ cs'.length := by
            simp only [List.length_drop, List.length_cons]
            omega
          rw [ih m .html ((c :: cs').drop ((c :: cs').takeWhile identChar).length) ls
            (by rw [lexMeasure_html]; omega) (by rw [lexMeasure_html]; omega)]
        · exact ih m .normal (c :: cs') ls
            (by rw [lexMeasure_normal]; simp; omega)
            (by rw [lexMeasure_normal]; simp; omega)
    | normal =>
      rw [lexMeasure_normal] at h1 h2
      cases cs with
      | nil =>
        simp only [lexRun]
        cases ls with
        | nil => rfl
        | cons l ls' =>
          rw [linesWeight_cons] at h1 h2
          have hlen : (if isBlankLine l then ([] : List Char) else l).length ≤ l.length := by
            split <;> simp
          dsimp only
          rw [ih m .normal (if isBlankLine l then [] else l) ls'
            (by rw [lexMeasure_normal]; omega) (by rw [lexMeasure_normal]; omega)]
      | cons c cs' =>
        simp only [List.length_cons] at h1 h2
        simp only [lexRun]
        split_ifs with hcmd hhs hhe
        · have hd : (cs'.drop ((cs'.takeWhile identChar).length)).length ≤ cs'.length := by
            simp [List.length_drop]
          cases hl : lookupCommand (cs'.takeWhile identChar) with
          | none =>
            rw [ih m .normal (cs'.drop (cs'.takeWhile identChar).length) ls
              (by rw [lexMeasure_normal]; omega) (by rw [lexMeasure_normal]; omega)]
          | some k =>
            cases k with
            | verbatimBlock =>
              rw [ih m (.raw ('e' :: 'n' :: 'd' :: cs'.takeWhile identChar) true)
                (cs'.drop (cs'.takeWhile identChar).length) ls
                (by rw [lexMeasure_raw]; omega) (by rw [lexMeasure_raw]; omega)]
            | verbatimLine =>
              rw [ih m .normal [] ls
                (by rw [lexMeasure_normal]; simp; omega)
                (by rw [lexMeasure_normal]; simp; omega)]
            | block =>
              rw [ih m .normal (cs'.drop (cs'.takeWhile identChar).length) ls
                (by rw [lexMeasure_normal]; omega) (by rw [lexMeasure_normal]; omega)]
            | param =>
              rw [ih m .normal (cs'.drop (cs'.takeWhile identChar).length) ls
                (by rw [lexMeasure_normal]; omega) (by rw [lexMeasure_normal]; omega)]
            | inlineCmd a =>
              rw [ih m .normal (cs'.drop (cs'.takeWhile identChar).length) ls
                (by rw [lexMeasure_normal]; omega) (by rw [lexMeasure_normal]; omega)]
        · have halp : firstAlpha cs' = true := by
            simp only [Bool.and_eq_true, decide_eq_true_eq] at hhs
            exact hhs.2
          have htw : (cs'.takeWhile identChar).length ≥ 1 := by
            cases cs' with
            | nil => simp [firstAlpha] at halp
            | cons d cs'' =>
              simp only [firstAlpha] at halp
              rw [List.takeWhile_cons_of_pos (by simp [identChar, Char.isAlphanum, halp])]
              simp
          have hd : (cs'.drop ((cs'.takeWhile identChar).length)).length + 1 ≤ cs'.length := by
            simp only [List.length_drop]
            have := takeWhileLen identChar cs'
            omega
          rw [ih m .html (cs'.drop (cs'.takeWhile identChar).length) ls
            (by rw [lexMeasure_html]; omega) (by rw [lexMeasure_html]; omega)]
        · have hd : (cs'.tail.drop ((cs'.tail.takeWhile identChar).length)).length
              ≤ cs'.length := by
            simp only [List.length_drop, List.length_tail]
            omega
          have hdw : ((cs'.tail.drop (cs'.tail.takeWhile identChar).length).dropWhile
              wsChar).length ≤ cs'.length :=
            le_trans (dropWhileLen _ _) hd
          split
          case _ r heq =>
            rw [heq] at hdw
            simp only [List.length_cons] at hdw
            rw [ih m .normal r ls (by rw [lexMeasure_normal]; omega)
              (by rw [lexMeasure_normal]; omega)]
          case _ =>
            rw [ih m .normal (cs'.tail.drop (cs'.tail.takeWhile identChar).length) ls
              (by rw [lexMeasure_normal]; omega) (by rw [lexMeasure_normal]; omega)]
        · have hsc := scanText_le cs'
          rw [ih m .normal (scanText cs').2 ls
            (by rw [lexMeasure_normal]; omega) (by rw [lexMeasure_normal]; omega)]

/-! ## Length and progress lemmas for the parser -/

theorem collectAttrs_le (toks : List Tok) :
    (collectAttrs toks).2.2.length ≤ toks.length := by
  induction toks using collectAttrs.induct <;> simp_all [collectAttrs] <;> omega

theorem collectVerbatim_le (toks : List Tok) :
    (collectVerbatim toks).2.length ≤ toks.length := by
  induction toks using collectVerbatim.induct <;>
    simp_all [collectVerbatim] <;> omega

theorem pushText_le (s : List Char) (rest : List Tok) :
    (pushText s rest).length ≤ rest.length + 1 := by
  unfold pushText
  split <;> simp

theorem lexWordTok_le {toks : List Tok} {w : List Char} {rest' : List Tok}
    (h : lexWordTok toks = some (w, rest')) : rest'.length ≤ toks.length := by
  rw [lexWordTok.eq_def] at h
  split at h
  case _ s rest =>
    split at h
    case _ w' rem heq =>
      simp only [Option.some.injEq, Prod.mk.injEq] at h
      obtain ⟨rfl, rfl⟩ := h
      have := pushText_le rem rest
      simp only [List.length_cons]
      omega
    case _ => exact absurd h (by simp)
  case _ => exact absurd h (by simp)

theorem parseDirection_le (toks : List Tok) :
    (parseDirection toks).2.2.length ≤ toks.length := by
  rw [parseDirection.eq_def]
  split
  case _ s rest =>
    split
    case _ t' heq =>
      split
      · simp
      · split <;>
          simp only [List.length_cons] <;>
          exact le_trans (pushText_le _ _) (by omega)
    case _ => simp
  case _ => simp

theorem parseParamName_le (toks : List Tok) :
    (parseParamName toks).2.length ≤ toks.length := by
  rw [parseParamName.eq_def]
  split
  case _ w r heq => exact lexWordTok_le heq
  case _ => simp

theorem parsePara_le (fuel : Nat) (acc : List Inline) (toks : List Tok) :
    (parsePara fuel acc toks).2.length ≤ toks.length := by
  induction fuel, acc, toks using parsePara.induct <;>
    (try simp_all [parsePara]) <;> (try omega)
  case _ =>
    -- inline command that consumed a word argument
    rename_i f a nm rest ar hl hne w r hlex ih
    have := lexWordTok_le hlex
    omega
  case _ =>
    -- HTML start tag: the attribute run only shortens the stream
    rename_i f a tg rest ih
    have := collectAttrs_le rest
    omega

/-- Any non-terminator head token is consumed by the paragraph rule. -/
theorem parsePara_consume (fuel : Nat) (acc : List Inline) (t : Tok)
    (rest : List Tok) (h : isTerminator t = false) :
    (parsePara (fuel + 1) acc (t :: rest)).2.length ≤ rest.length := by
  cases t
  case newline =>
    simp only [parsePara]
    split
    · simp
    · simp_all
    · split
      · simp
      · exact parsePara_le _ _ _
  case text s => exact parsePara_le fuel (.text s false :: acc) rest
  case cmd name =>
    simp only [parsePara]
    split
    case _ heq => simp [isTerminator, heq] at h
    case _ heq => simp [isTerminator, heq] at h
    case _ arity heq =>
      split
      · exact parsePara_le fuel (.inlineCommand name none :: acc) rest
      · split
        case _ w rest' heq2 =>
          exact le_trans (parsePara_le fuel _ rest') (lexWordTok_le heq2)
        case _ => exact parsePara_le fuel (.inlineCommand name none :: acc) rest
    case _ => exact parsePara_le fuel (.inlineCommand name none :: acc) rest
  case vbBegin n => simp [isTerminator] at h
  case vlCmd n s => simp [isTerminator] at h
  case vbLine s => exact parsePara_le fuel acc rest
  case vbEnd n => exact parsePara_le fuel acc rest
  case htmlStart tag =>
    simp only [parsePara]
    exact le_trans (parsePara_le fuel _ _) (collectAttrs_le rest)
  case htmlIdent s => exact parsePara_le fuel acc rest
  case htmlEquals => exact parsePara_le fuel acc rest
  case htmlQuoted s => exact parsePara_le fuel acc rest
  case htmlGreater => exact parsePara_le fuel acc rest
  case htmlSlashGreater => exact parsePara_le fuel acc rest
  case htmlEnd tag =>
    simp only [parsePara]
    rcases rest with _ | ⟨t', rest'⟩
    · exact parsePara_le fuel (Inline.htmlEndTag tag :: acc) []
    · cases t'
      case htmlGreater =>
        exact le_trans
          (parsePara_le fuel (Inline.htmlEndTag tag :: acc) rest') (by simp)
      all_goals exact parsePara_le fuel (Inline.htmlEndTag tag :: acc) _

/-- The block rule always consumes at least one token. -/
theorem parseBlock_lt (t : Tok) (rest : List Tok) :
    (parseBlock (t :: rest)).2.length < (t :: rest).length := by
  have hfuel : ∀ u : Tok, paraFuel (u :: rest) = rest.length + 1 + 1 := by
    intro u; simp [paraFuel]
  cases t
  case newline => simp [parseBlock]
  case vbBegin name =>
    have := collectVerbatim_le rest
    simp only [parseBlock, List.length_cons]
    omega
  case vlCmd name s => simp [parseBlock]
  case cmd name =>
    cases hl : lookupCommand name with
    | none =>
      have hter : isTerminator (Tok.cmd name) = false := by
        simp [isTerminator, hl]
      have := parsePara_consume (rest.length + 1) [] (Tok.cmd name) rest hter
      simp only [parseBlock, hl, hfuel, List.length_cons]
      omega
    | some k =>
      cases k with
      | block =>
        have := parsePara_le (paraFuel rest) [] rest
        simp only [parseBlock, hl, List.length_cons]
        omega
      | param =>
        have h1 := parseDirection_le rest
        have h2 := parseParamName_le (parseDirection rest).2.2
        have h3 := parsePara_le
          (paraFuel (parseParamName (parseDirection rest).2.2).2) []
          (parseParamName (parseDirection rest).2.2).2
        simp only [parseBlock, hl, List.length_cons]
        omega
      | inlineCmd a =>
        have hter : isTerminator (Tok.cmd name) = false := by
          simp [isTerminator, hl]
        have := parsePara_consume (rest.length + 1) [] (Tok.cmd name) rest hter
        simp only [parseBlock, hl, hfuel, List.length_cons]
        omega
      | verbatimBlock =>
        have hter : isTerminator (Tok.cmd name) = false := by
          simp [isTerminator, hl]
        have := parsePara_consume (rest.length + 1) [] (Tok.cmd name) rest hter
        simp only [parseBlock, hl, hfuel, List.length_cons]
        omega
      | verbatimLine =>
        have hter : isTerminator (Tok.cmd name) = false := by
          simp [isTerminator, hl]
        have := parsePara_consume (rest.length + 1) [] (Tok.cmd name) rest hter
        simp only [parseBlock, hl, hfuel, List.length_cons]
        omega
  case text s =>
    have := parsePara_consume (rest.length + 1) [] (Tok.text s) rest
      (by simp [isTerminator])
    simp only [parseBlock, hfuel, List.length_cons]
    omega
  case vbLine s =>
    have := parsePara_consume (rest.length + 1) [] (Tok.vbLine s) rest
      (by simp [isTerminator])
    simp only [parseBlock, hfuel, List.length_cons]
    omega
  case vbEnd n =>
    have := parsePara_consume (rest.length + 1) [] (Tok.vbEnd n) rest
      (by simp [isTerminator])
    simp only [parseBlock, hfuel, List.length_cons]
    omega
  case htmlStart tag =>
    have := parsePara_consume (rest.length + 1) [] (Tok.htmlStart tag) rest
      (by simp [isTerminator])
    simp only [parseBlock, hfuel, List.length_cons]
    omega
  case htmlIdent s =>
    have := parsePara_consume (rest.length + 1) [] (Tok.htmlIdent s) rest
      (by simp [isTerminator])
    simp only [parseBlock, hfuel, List.length_cons]
    omega
  case htmlEquals =>
    have := parsePara_consume (rest.length + 1) [] Tok.htmlEquals rest
      (by simp [isTerminator])
    simp only [parseBlock, hfuel, List.length_cons]
    omega
  case htmlQuoted s =>
    have := parsePara_consume (rest.length + 1) [] (Tok.htmlQuoted s) rest
      (by simp [isTerminator])
    simp only [parseBlock, hfuel, List.length_cons]
    omega
  case htmlGreater =>
    have := parsePara_consume (rest.length + 1) [] Tok.htmlGreater rest
      (by simp [isTerminator])
    simp only [parseBlock, hfuel, List.length_cons]
    omega
  case htmlSlashGreater =>
    have := parsePara_consume (rest.length + 1) [] Tok.htmlSlashGreater rest
      (by simp [isTerminator])
    simp only [parseBlock, hfuel, List.length_cons]
    omega
  case htmlEnd tag =>
    have := parsePara_consume (rest.length + 1) [] (Tok.htmlEnd tag) rest
      (by simp [isTerminator])
    simp only [parseBlock, hfuel, List.length_cons]
    omega

/-- The top-level loop is insensitive to the exact fuel, provided it
exceeds the number of tokens: the recursion terminates. -/
theorem parseTopLoop_stable (f₁ : Nat) :
    ∀ (f₂ : Nat) (toks : List Tok), toks.length < f₁ → toks.length < f₂ →
      parseTopLoop f₁ toks = parseTopLoop f₂ toks := by
  induction f₁ with
  | zero => intro f₂ toks h1 _; omega
  | succ n ih =>
    intro f₂ toks h1 h2
    match f₂, toks with
    | f₂ + 1, [] => rfl
    | f₂ + 1, t :: rest =>
      simp only [parseTopLoop]
      have hlt := parseBlock_lt t rest
      have heq := ih f₂ (parseBlock (t :: rest)).2 (by omega) (by omega)
      rw [heq]

/-- With sufficient fuel the top-level loop consumes every token. -/
theorem parseTopLoop_consumes (fuel : Nat) :
    ∀ toks : List Tok, toks.length < fuel → (parseTopLoop fuel toks).2 = [] := by
  induction fuel with
  | zero => intro toks h; omega
  | succ n ih =>
    intro toks h
    match toks with
    | [] => rfl
    | t :: rest =>
      simp only [parseTopLoop]
      have hlt := parseBlock_lt t rest
      exact ih (parseBlock (t :: rest)).2 (by omega)

/-! ## Decoration stripping lemmas -/

theorem splitLinesC_single {l : List Char} (h : '\n' ∉ l) :
    splitLinesC l = [l] := by
  induction l with
  | nil => rfl
  | cons c cs ih =>
    have hc : c ≠ '\n' := fun hh => h (by simp [hh])
    have h' : '\n' ∉ cs := fun hh => h (List.mem_cons_of_mem _ hh)
    simp only [splitLinesC, if_neg hc]
    rw [ih h']

theorem splitLinesC_append {l : List Char} (h : '\n' ∉ l) (rest : List Char) :
    splitLinesC (l ++ '\n' :: rest) = l :: splitLinesC rest := by
  induction l with
  | nil => simp [splitLinesC]
  | cons c cs ih =>
    have hc : c ≠ '\n' := fun hh => h (by simp [hh])
    have h' : '\n' ∉ cs := fun hh => h (List.mem_cons_of_mem _ hh)
    simp only [List.cons_append, splitLinesC, if_neg hc, List.append_eq]
    rw [ih h']

theorem splitLinesC_intercalate :
    ∀ ls : List (List Char), ls ≠ [] → (∀ l ∈ ls, '\n' ∉ l) →
      splitLinesC (intercalateC ['\n'] ls) = ls
  | [], h, _ => absurd rfl h
  | [l], _, hl => by
    simp only [intercalateC]
    exact splitLinesC_single (hl l (by simp))
  | l :: l' :: tl, _, hl => by
    simp only [intercalateC]
    rw [show l ++ ['\n'] ++ intercalateC ['\n'] (l' :: tl)
        = l ++ '\n' :: intercalateC ['\n'] (l' :: tl) by simp]
    rw [splitLinesC_append (hl l (by simp))]
    rw [splitLinesC_intercalate (l' :: tl) (by simp)
      (fun x hx => hl x (List.mem_cons_of_mem _ hx))]

theorem dropCloseMarker_append (x : List Char) :
    dropCloseMarker (x ++ ['*', '/']) = x := by
  unfold dropCloseMarker
  rw [List.reverse_append]
  simp

theorem stripLineComment_decorated {l : List Char}
    (h : l = [] ∨ l.head? = some ' ') :
    stripLineComment ('/' :: '/' :: l) = l := by
  rcases h with rfl | h
  · rfl
  · cases l with
    | nil => rfl
    | cons c cs =>
      simp only [List.head?] at h
      obtain rfl : c = ' ' := by injection h
      rfl

theorem stripBlockFirst_decorated {l : List Char}
    (h : l = [] ∨ l.head? = some ' ') :
    stripBlockFirst ('/' :: '*' :: l) = l := by
  rcases h with rfl | h
  · rfl
  · cases l with
    | nil => rfl
    | cons c cs =>
      simp only [List.head?] at h
      obtain rfl : c = ' ' := by injection h
      rfl

theorem stripBlockCont_decorated (l : List Char) :
    stripBlockCont (' ' :: '*' :: l) = l := rfl

theorem strip_lineDecorate (ls : List (List Char)) (hne : ls ≠ [])
    (h : ∀ l ∈ ls, goodLine l) : stripComment (lineDecorate ls) = ls := by
  obtain ⟨l0, rest, rfl⟩ : ∃ l0 rest, ls = l0 :: rest := by
    cases ls with
    | nil => exact absurd rfl hne
    | cons a b => exact ⟨a, b, rfl⟩
  have hshape : ∃ t, lineDecorate (l0 :: rest) = '/' :: '/' :: t := by
    cases rest with
    | nil => exact ⟨l0, rfl⟩
    | cons l' tl =>
      refine ⟨l0 ++ ['\n'] ++ intercalateC ['\n']
        ((l' :: tl).map (fun l => '/' :: '/' :: l)), ?_⟩
      simp [lineDecorate, intercalateC]
  unfold stripComment
  rw [if_neg ?hpre]
  case hpre =>
    obtain ⟨t, ht⟩ := hshape
    rw [ht]
    simp [List.isPrefixOf]
  unfold lineDecorate
  rw [splitLinesC_intercalate ((l0 :: rest).map (fun l => '/' :: '/' :: l))
    (by simp) ?hnl]
  case hnl =>
    intro l' hl'
    simp only [List.mem_map] at hl'
    obtain ⟨l, hl, rfl⟩ := hl'
    have := (h l hl).1
    simp
    exact this
  rw [List.map_map]
  have hcong : ∀ l ∈ l0 :: rest,
      (stripLineComment ∘ fun l => '/' :: '/' :: l) l = id l := by
    intro l hl
    simp only [Function.comp, id]
    exact stripLineComment_decorated (h l hl).2
  rw [List.map_congr_left hcong, List.map_id]

theorem strip_blockDecorate (ls : List (List Char)) (hne : ls ≠ [])
    (h : ∀ l ∈ ls, goodLine l) : stripComment (blockDecorate ls) = ls := by
  obtain ⟨l0, rest, rfl⟩ : ∃ l0 rest, ls = l0 :: rest := by
    cases ls with
    | nil => exact absurd rfl hne
    | cons a b => exact ⟨a, b, rfl⟩
  unfold stripComment blockDecorate
  dsimp only
  rw [if_pos (by simp [List.isPrefixOf])]
  rw [show '/' :: '*' ::
        (intercalateC ['\n'] (l0 :: rest.map (fun l => ' ' :: '*' :: l)) ++ ['*', '/'])
      = ('/' :: '*' ::
          intercalateC ['\n'] (l0 :: rest.map (fun l => ' ' :: '*' :: l))) ++ ['*', '/']
    by simp]
  rw [dropCloseMarker_append]
  rw [show '/' :: '*' :: intercalateC ['\n'] (l0 :: rest.map (fun l => ' ' :: '*' :: l))
      = intercalateC ['\n'] (('/' :: '*' :: l0) :: rest.map (fun l => ' ' :: '*' :: l))
    from ?hsh]
  case hsh =>
    cases hr : rest.map (fun l => ' ' :: '*' :: l) with
    | nil => simp [intercalateC]
    | cons m tl => simp [intercalateC]
  rw [splitLinesC_intercalate (('/' :: '*' :: l0) :: rest.map (fun l => ' ' :: '*' :: l))
    (by simp) ?hnl]
  case hnl =>
    intro l' hl'
    simp only [List.mem_cons, List.mem_map] at hl'
    rcases hl' with rfl | ⟨l, hl, rfl⟩
    · have := (h l0 (by simp)).1
      simp
      exact this
    · have := (h l (List.mem_cons_of_mem _ hl)).1
      simp
      exact this
  dsimp only
  rw [stripBlockFirst_decorated (h l0 (by simp)).2]
  rw [List.map_map]
  have hcong : ∀ l ∈ rest,
      (stripBlockCont ∘ fun l => ' ' :: '*' :: l) l = id l := by
    intro l hl
    simp only [Function.comp, id]
    exact stripBlockCont_decorated l
  rw [List.map_congr_left hcong, List.map_id]

/-! ## Claim theorems: totality and consumption -/

/-- C1: for every input string the parse terminates -- any fuel covering
the (linear) measures of the lexer and of the top-level parser loop yields
the very same result as the canonical run -- and the result is always a
`FullComment` root node, never a failure. -/
theorem parseFullComment_terminates (s : String) (lf pf : Nat)
    (h1 : linesWeight (stripComment s.toList) + 2 ≤ lf)
    (h2 : (tokenize s.toList).length < pf) :
    FullComment.mk (parseTopLoop pf (lexLinesWith lf (stripComment s.toList))).1
      = parseFullComment s := by
  have hlex : lexLinesWith lf (stripComment s.toList) = tokenize s.toList := by
    unfold tokenize lexLines
    cases hst : stripComment s.toList with
    | nil => rfl
    | cons l ls' =>
      rw [hst] at h1
      rw [linesWeight_cons] at h1
      unfold lexLinesWith
      have hlen : (if isBlankLine l then ([] : List Char) else l).length
          ≤ l.length := by
        split <;> simp
      apply lexRun_stable
      · rw [lexMeasure_normal]; omega
      · rw [lexMeasure_normal, linesWeight_cons]; omega
  rw [hlex]
  unfold parseFullComment parseComment parseTokens
  rw [parseTopLoop_stable pf ((tokenize s.toList).length + 1) (tokenize s.toList)
    h2 (by omega)]

/-- C10: for every input, the parse consumes the entire token stream:
after the top-level loop finishes, no token remains unconsumed. -/
theorem parseFullComment_consumes_all (s : String) :
    (parseTopLoop ((tokenize s.toList).length + 1) (tokenize s.toList)).2 = [] :=
  parseTopLoop_consumes _ _ (by omega)

/-- Witness for the termination theorem at a concrete input and fuels. -/
theorem parseFullComment_terminates_witness :
    FullComment.mk
        (parseTopLoop 100 (lexLinesWith 100 (stripComment "// Aaa".toList))).1
      = parseFullComment "// Aaa" :=
  parseFullComment_terminates "// Aaa" 100 100 (by decide) (by decide)

/-- C9: parsing the line-decorated form (each line prefixed with `//`) and
the block-decorated form (`/* ... */` with `space *` line prefixes) of the
same logical content produces identical ASTs, for any content whose lines
are newline-free and blank or space-led. -/
theorem decoration_forms_equivalent (ls : List (List Char))
    (h : ∀ l ∈ ls, goodLine l) :
    parseComment (lineDecorate ls) = parseComment (blockDecorate ls) := by
  cases ls with
  | nil => rfl
  | cons l0 rest =>
    unfold parseComment tokenize
    rw [strip_lineDecorate _ (by simp) h, strip_blockDecorate _ (by simp) h]

/-- Witness for the decoration-equivalence theorem on the fixture of the
`VerbatimBlock6` test. -/
theorem decoration_forms_equivalent_witness :
    parseComment (lineDecorate
        [" \\verbatim".toList, " Aaa".toList, [], " Bbb".toList,
         " \\endverbatim".toList])
      = parseComment (blockDecorate
        [" \\verbatim".toList, " Aaa".toList, [], " Bbb".toList,
         " \\endverbatim".toList]) :=
  decoration_forms_equivalent _ (by decide)

/-! ## Claim theorems: unterminated verbatim blocks -/

theorem linesWeight_ge (ls : List (List Char)) : ls.length ≤ linesWeight ls := by
  induction ls with
  | nil => simp [linesWeight]
  | cons l tl ih =>
    rw [linesWeight_cons]
    simp only [List.length_cons]
    omega

/-- A line with no command-introducer character can never contain the
closing command of a verbatim block. -/
theorem splitAtClose_none {close cs : List Char}
    (h : '\\' ∉ cs ∧ '@' ∉ cs) : splitAtClose close cs = none := by
  induction cs with
  | nil => rfl
  | cons c cs ih =>
    obtain ⟨h1, h2⟩ := h
    have hc1 : c ≠ '\\' := fun e => h1 (by simp [e])
    have hc2 : c ≠ '@' := fun e => h2 (by simp [e])
    rw [splitAtClose.eq_def]
    dsimp only
    rw [if_neg (by simp [hc1, hc2])]
    rw [ih ⟨fun hh => h1 (List.mem_cons_of_mem _ hh),
      fun hh => h2 (List.mem_cons_of_mem _ hh)⟩]

/-- In raw-line mode, introducer-free lines are all captured verbatim and
the scan ends quietly at end of input. -/
theorem lexRun_raw_all (close : List Char) :
    ∀ (ls : List (List Char)) (l : List Char) (fuel : Nat),
      ('\\' ∉ l ∧ '@' ∉ l) → (∀ l' ∈ ls, '\\' ∉ l' ∧ '@' ∉ l') →
      ls.length ≤ fuel →
      lexRun (fuel + 1) (.raw close false) l ls = .vbLine l :: ls.map .vbLine
  | [], l, fuel, hl, _, _ => by
    simp only [lexRun]
    rw [splitAtClose_none hl]
    simp
  | l' :: tl, l, fuel, hl, hls, hfuel => by
    obtain ⟨f', rfl⟩ : ∃ f', fuel = f' + 1 := by
      cases fuel with
      | zero => simp at hfuel
      | succ f' => exact ⟨f', rfl⟩
    simp only [lexRun]
    rw [splitAtClose_none hl]
    show Tok.vbLine l :: lexRun (f' + 1) (.raw close false) l' tl
      = Tok.vbLine l :: (l' :: tl).map Tok.vbLine
    rw [lexRun_raw_all close tl l' f' (hls l' (by simp))
      (fun x hx => hls x (List.mem_cons_of_mem _ hx))
      (by simp at hfuel; omega)]
    simp

/-- Opening two normal-mode steps of lexing a line `" \verbatim..."`. -/
theorem lexRun_verbatim_open (f : Nat) (ls : List (List Char)) :
    lexRun (f + 2) .normal (" \\verbatim".toList) ls
      = .text [' '] :: .vbBegin "verbatim".toList ::
          lexRun f (.raw "endverbatim".toList true) [] ls := rfl

/-- The raw scan with the `first` flag set skips an empty opening segment. -/
theorem lexRun_raw_first (close : List Char) (fuel : Nat)
    (ls : List (List Char)) (hls : ∀ l' ∈ ls, '\\' ∉ l' ∧ '@' ∉ l')
    (hfuel : ls.length ≤ fuel) :
    lexRun (fuel + 1) (.raw close true) [] ls = ls.map .vbLine := by
  cases ls with
  | nil => rfl
  | cons l tl =>
    obtain ⟨f', rfl⟩ : ∃ f', fuel = f' + 1 := by
      cases fuel with
      | zero => simp at hfuel
      | succ f' => exact ⟨f', rfl⟩
    show lexRun (f' + 1) (.raw close false) l tl = (l :: tl).map Tok.vbLine
    exact lexRun_raw_all close tl l f' (hls l (by simp))
      (fun x hx => hls x (List.mem_cons_of_mem _ hx))
      (by simp at hfuel; omega)

theorem collectVerbatim_map (ls : List (List Char)) :
    collectVerbatim (ls.map .vbLine) = (ls, []) := by
  induction ls with
  | nil => rfl
  | cons l tl ih => simp [collectVerbatim, ih]

theorem parseTopLoop_nil (fuel : Nat) : parseTopLoop fuel [] = ([], []) := by
  cases fuel <;> rfl

/-- Parsing the token stream of a verbatim block with unterminated body
lines: a leading paragraph of one space, then the block with all lines. -/
theorem parse_verbatim_tokens (ls : List (List Char)) :
    parseTokens (.text [' '] :: .vbBegin "verbatim".toList :: ls.map .vbLine)
      = ⟨[.paragraph [.text [' '] false],
          .verbatimBlock "verbatim".toList ls]⟩ := by
  unfold parseTokens
  have h1 : parseTopLoop
      ((Tok.text [' '] :: Tok.vbBegin "verbatim".toList :: ls.map Tok.vbLine).length + 1)
      (Tok.text [' '] :: Tok.vbBegin "verbatim".toList :: ls.map Tok.vbLine)
    = (Block.paragraph [.text [' '] false] ::
         Block.verbatimBlock "verbatim".toList (collectVerbatim (ls.map Tok.vbLine)).1 ::
         (parseTopLoop ((ls.map Tok.vbLine).length + 1)
           (collectVerbatim (ls.map Tok.vbLine)).2).1,
       (parseTopLoop ((ls.map Tok.vbLine).length + 1)
         (collectVerbatim (ls.map Tok.vbLine)).2).2) := rfl
  rw [h1, collectVerbatim_map]
  simp [parseTopLoop_nil]

/-- C5: an input whose verbatim-block opening command is never followed by
its matching closing command still parses into a well-formed
`VerbatimBlock` holding every raw line seen up to end of input, with no
error: here a line comment opening with `\verbatim` followed by arbitrary
introducer-free decorated lines. -/
theorem unterminated_verbatim_block (ls : List (List Char))
    (h : ∀ l ∈ ls, goodLine l ∧ '\\' ∉ l ∧ '@' ∉ l) :
    parseComment (lineDecorate (" \\verbatim".toList :: ls)) =
      ⟨[.paragraph [.text [' '] false],
        .verbatimBlock "verbatim".toList ls]⟩ := by
  unfold parseComment tokenize
  rw [strip_lineDecorate (" \\verbatim".toList :: ls) (by simp) ?hgood]
  case hgood =>
    intro l hl
    simp only [List.mem_cons] at hl
    rcases hl with rfl | hl
    · decide
    · exact (h l hl).1
  -- lex the stripped lines
  unfold lexLines lexLinesWith
  dsimp only
  rw [if_neg (by decide)]
  rw [show linesWeight (" \\verbatim".toList :: ls) + 2
      = (linesWeight ls + 12) + 2 from by
    rw [linesWeight_cons]
    have hlen : (" \\verbatim".toList).length = 10 := rfl
    omega]
  rw [lexRun_verbatim_open (linesWeight ls + 12) ls]
  rw [show linesWeight ls + 12 = (linesWeight ls + 11) + 1 from by omega]
  rw [lexRun_raw_first "endverbatim".toList (linesWeight ls + 11) ls
    (fun l hl => ⟨(h l hl).2.1, (h l hl).2.2⟩)
    (le_trans (linesWeight_ge ls) (by omega))]
  exact parse_verbatim_tokens ls

/-- Witness for the unterminated-verbatim theorem on a concrete input. -/
theorem unterminated_verbatim_block_witness :
    parseComment (lineDecorate
        [" \\verbatim".toList, " Aaa".toList, [], " Bbb".toList]) =
      ⟨[.paragraph [.text [' '] false],
        .verbatimBlock "verbatim".toList
          [" Aaa".toList, [], " Bbb".toList]]⟩ :=
  unterminated_verbatim_block [" Aaa".toList, [], " Bbb".toList] (by decide)

/-! ## Claim theorems: paragraph breaks at blank lines -/

/-- Lexing a run of blank lines followed by a prose line: one `newline`
marker per line transition, then the prose text. -/
theorem lexRun_blanks (n f : Nat) :
    lexRun (f + n + 3) .normal [] (List.replicate n [] ++ [" Bbb".toList])
      = List.replicate (n + 1) .newline ++ [.text " Bbb".toList] := by
  induction n generalizing f with
  | zero => rfl
  | succ m ih =>
    show Tok.newline :: lexRun (f + m + 3) .normal []
        (List.replicate m [] ++ [" Bbb".toList])
      = List.replicate (m + 1 + 1) .newline ++ [.text " Bbb".toList]
    rw [ih f]
    simp [List.replicate_succ]

/-- The top loop skips leading blank-line markers and then parses the
remaining prose line as one paragraph. -/
theorem parseTopLoop_blanks :
    ∀ (m f : Nat), m + 2 ≤ f →
      parseTopLoop f (List.replicate m .newline ++ [.text " Bbb".toList])
        = ([.paragraph [.text " Bbb".toList false]], []) := by
  intro m
  induction m with
  | zero =>
    intro f hf
    obtain ⟨g, rfl⟩ : ∃ g, f = g + 1 := ⟨f - 1, by omega⟩
    show (([Block.paragraph [.text " Bbb".toList false]] : List Block) ++
        (parseTopLoop g []).1, (parseTopLoop g []).2)
      = ([.paragraph [.text " Bbb".toList false]], [])
    rw [parseTopLoop_nil]
    simp
  | succ m ih =>
    intro f hf
    obtain ⟨g, rfl⟩ : ∃ g, f = g + 1 := ⟨f - 1, by omega⟩
    show (([] : List Block) ++
        (parseTopLoop g (List.replicate m .newline ++ [.text " Bbb".toList])).1,
       (parseTopLoop g (List.replicate m .newline ++ [.text " Bbb".toList])).2)
      = ([.paragraph [.text " Bbb".toList false]], [])
    rw [ih g (by omega)]
    simp

/-- C3: a blank decorated line between two prose lines splits them into
exactly two sibling paragraphs, each with exactly one text child, and any
number `n ≥ 1` of consecutive blank lines yields that same two-paragraph
tree: blank lines collapse to a single paragraph break and no empty
paragraph is emitted for the extra blank lines. -/
theorem blank_lines_collapse (n : Nat) (h : 1 ≤ n) :
    parseComment (lineDecorate
        (" Aaa".toList :: (List.replicate n [] ++ [" Bbb".toList]))) =
      ⟨[.paragraph [.text " Aaa".toList false],
        .paragraph [.text " Bbb".toList false]]⟩ := by
  obtain ⟨m, rfl⟩ : ∃ m, n = m + 1 := ⟨n - 1, by omega⟩
  unfold parseComment tokenize
  rw [strip_lineDecorate _ (by simp) ?hgood]
  case hgood =>
    intro l hl
    simp only [List.mem_cons, List.mem_append, List.mem_replicate,
      List.mem_singleton] at hl
    rcases hl with rfl | ⟨-, rfl⟩ | rfl | hfalse
    · decide
    · decide
    · decide
    · simp at hfalse
  unfold lexLines lexLinesWith
  dsimp only
  rw [if_neg (by decide)]
  have hlw : linesWeight (List.replicate (m + 1) [] ++ [" Bbb".toList]) = 2 * m + 8 := by
    unfold linesWeight
    rw [List.map_append, List.sum_append, List.map_replicate]
    simp [List.sum_replicate, smul_eq_mul]
    omega
  rw [show linesWeight (" Aaa".toList :: (List.replicate (m + 1) [] ++ [" Bbb".toList])) + 2
      = ((m + 11) + (m + 1) + 3) + 1 from by
    rw [linesWeight_cons, hlw]
    have hlen : (" Aaa".toList).length = 4 := rfl
    omega]
  show parseTokens (Tok.text " Aaa".toList ::
      lexRun ((m + 11) + (m + 1) + 3) .normal []
        (List.replicate (m + 1) [] ++ [" Bbb".toList])) = _
  rw [lexRun_blanks (m + 1) (m + 11)]
  -- now the parser part
  unfold parseTokens
  have hb : parseBlock (Tok.text " Aaa".toList ::
        (List.replicate (m + 1 + 1) .newline ++ [.text " Bbb".toList]))
      = ([.paragraph [.text " Aaa".toList false]],
         List.replicate m .newline ++ [.text " Bbb".toList]) := rfl
  have hloop : parseTopLoop
      ((Tok.text " Aaa".toList ::
        (List.replicate (m + 1 + 1) .newline ++ [.text " Bbb".toList])).length + 1)
      (Tok.text " Aaa".toList ::
        (List.replicate (m + 1 + 1) .newline ++ [.text " Bbb".toList]))
    = ((parseBlock (Tok.text " Aaa".toList ::
          (List.replicate (m + 1 + 1) .newline ++ [.text " Bbb".toList]))).1 ++
        (parseTopLoop
          ((Tok.text " Aaa".toList ::
            (List.replicate (m + 1 + 1) .newline ++ [.text " Bbb".toList])).length)
          (parseBlock (Tok.text " Aaa".toList ::
            (List.replicate (m + 1 + 1) .newline ++ [.text " Bbb".toList]))).2).1,
       (parseTopLoop
          ((Tok.text " Aaa".toList ::
            (List.replicate (m + 1 + 1) .newline ++ [.text " Bbb".toList])).length)
          (parseBlock (Tok.text " Aaa".toList ::
            (List.replicate (m + 1 + 1) .newline ++ [.text " Bbb".toList]))).2).2) := rfl
  rw [hloop, hb]
  rw [parseTopLoop_blanks m _ (by simp)]
  simp

/-- Witness for the blank-line collapse theorem with two consecutive
blank lines. -/
theorem blank_lines_collapse_witness :
    parseComment (lineDecorate
        (" Aaa".toList :: (List.replicate 2 [] ++ [" Bbb".toList]))) =
      ⟨[.paragraph [.text " Aaa".toList false],
        .paragraph [.text " Bbb".toList false]]⟩ :=
  blank_lines_collapse 2 (by decide)

/-! ## Claim theorems: inline command with a missing required argument -/

theorem wsChar_cases {c : Char} (h : wsChar c = true) : c = ' ' ∨ c = '\t' := by
  simp only [wsChar, Bool.or_eq_true, decide_eq_true_eq] at h
  exact h

theorem takeWhile_ws (w : List Char) (hw : ∀ c ∈ w, wsChar c) :
    w.takeWhile identChar = [] := by
  cases w with
  | nil => rfl
  | cons c cs =>
    rw [List.takeWhile_cons_of_neg]
    rcases wsChar_cases (hw c (by simp)) with rfl | rfl <;> decide

theorem dropWhile_ws (w : List Char) (hw : ∀ c ∈ w, wsChar c) :
    w.dropWhile wsChar = [] := by
  induction w with
  | nil => rfl
  | cons c cs ih =>
    rw [List.dropWhile_cons_of_pos (hw c (by simp))]
    exact ih (fun x hx => hw x (by simp [hx]))

theorem startsConstruct_ws {c : Char} (cs : List Char) (h : wsChar c = true) :
    startsConstruct (c :: cs) = false := by
  rcases wsChar_cases h with rfl | rfl <;> rfl

theorem scanText_ws (w : List Char) (hw : ∀ c ∈ w, wsChar c) :
    scanText w = (w, []) := by
  induction w with
  | nil => rfl
  | cons c cs ih =>
    simp only [scanText]
    rw [if_neg (by rw [startsConstruct_ws cs (hw c (by simp))]; simp)]
    rw [ih (fun x hx => hw x (by simp [hx]))]

theorem lexRun_nil_nil (f : Nat) : lexRun (f + 1) .normal [] [] = [] := rfl

/-- A line holding only whitespace after the command produces at most one
text token. -/
theorem lexRun_ws_line (w : List Char) (hw : ∀ c ∈ w, wsChar c) (f : Nat) :
    lexRun (f + 2) .normal w [] = if w = [] then [] else [.text w] := by
  cases w with
  | nil => rfl
  | cons c cs =>
    have hws' : ∀ x ∈ cs, wsChar x := fun x hx => hw x (by simp [hx])
    rcases wsChar_cases (hw c (by simp)) with rfl | rfl <;>
    · show Tok.text (_ :: (scanText cs).1) ::
          lexRun (f + 1) .normal (scanText cs).2 [] = _
      rw [scanText_ws cs hws']
      simp [lexRun_nil_nil]

/-- One normal-mode step on a command introducer. -/
theorem lexRun_cmd_step (f : Nat) (w : List Char) :
    lexRun (f + 1) .normal ('\\' :: 'c' :: w) [] =
      (match lookupCommand (('c' :: w).takeWhile identChar) with
       | some .verbatimBlock =>
         .vbBegin (('c' :: w).takeWhile identChar) ::
           lexRun f (.raw ('e' :: 'n' :: 'd' :: ('c' :: w).takeWhile identChar) true)
             (('c' :: w).drop (('c' :: w).takeWhile identChar).length) []
       | some .verbatimLine =>
         .vlCmd (('c' :: w).takeWhile identChar)
             (('c' :: w).drop (('c' :: w).takeWhile identChar).length) ::
           lexRun f .normal [] []
       | _ =>
         .cmd (('c' :: w).takeWhile identChar) ::
           lexRun f .normal (('c' :: w).drop (('c' :: w).takeWhile identChar).length) []) :=
  rfl

/-- Lexing the stripped line `space \c` followed by only whitespace. -/
theorem lexRun_c_line (w : List Char) (hw : ∀ c ∈ w, wsChar c) (f : Nat) :
    lexRun (f + 2 + 1 + 1) .normal (' ' :: '\\' :: 'c' :: w) []
      = .text [' '] :: .cmd ['c'] :: (if w = [] then [] else [.text w]) := by
  show Tok.text [' '] :: lexRun ((f + 2) + 1) .normal ('\\' :: 'c' :: w) [] = _
  congr 1
  rw [lexRun_cmd_step (f + 2) w]
  rw [show ('c' :: w).takeWhile identChar = ['c'] from by
    rw [List.takeWhile_cons_of_pos (by decide)]
    rw [takeWhile_ws w hw]]
  show Tok.cmd ['c'] :: lexRun (f + 2) .normal w [] = _
  congr 1
  exact lexRun_ws_line w hw f

/-- The top-level loop on a token stream forming exactly one block. -/
theorem parseTopLoop_one (t : Tok) (rest : List Tok) (blocks : List Block)
    (h : parseBlock (t :: rest) = (blocks, [])) (fuel : Nat) :
    parseTopLoop (fuel + 1) (t :: rest) = (blocks, []) := by
  show ((parseBlock (t :: rest)).1 ++ (parseTopLoop fuel (parseBlock (t :: rest)).2).1,
        (parseTopLoop fuel (parseBlock (t :: rest)).2).2) = (blocks, [])
  rw [h, parseTopLoop_nil]
  simp

/-- C8: an inline command whose table entry requires one argument but
which is followed by no word (end of input, or only whitespace) is emitted
as an `InlineCommand` with zero arguments; the surrounding parse is
unchanged, with the whitespace (if any) kept as ordinary text. -/
theorem inline_command_missing_arg (w : List Char) (hw : ∀ c ∈ w, wsChar c) :
    parseComment ("// \\c".toList ++ w) =
      ⟨[.paragraph ([.text [' '] false, .inlineCommand ['c'] none] ++
          (if w = [] then [] else [.text w false]))]⟩ := by
  have hnl : '\n' ∉ "// \\c".toList ++ w := by
    intro hmem
    rcases List.mem_append.1 hmem with hmem | hmem
    · simp at hmem
    · have := hw _ hmem
      simp [wsChar] at this
  have hstrip : stripComment ("// \\c".toList ++ w) = [' ' :: '\\' :: 'c' :: w] := by
    unfold stripComment
    rw [if_neg (by
      rw [show (['/', '*'].isPrefixOf ("// \\c".toList ++ w)) = false from rfl]
      simp)]
    rw [splitLinesC_single hnl]
    simp only [List.map]
    rfl
  unfold parseComment tokenize
  rw [hstrip]
  unfold lexLines lexLinesWith
  dsimp only
  rw [if_neg (by
    rw [show isBlankLine (' ' :: '\\' :: 'c' :: w) = false from rfl]
    simp)]
  rw [show linesWeight [' ' :: '\\' :: 'c' :: w] + 2 = (w.length + 3) + 2 + 1 + 1 from by
    rw [linesWeight_cons, linesWeight_nil]
    simp only [List.length_cons] <;> omega]
  rw [lexRun_c_line w hw (w.length + 3)]
  -- the parser part, split on whether trailing whitespace exists
  by_cases hwe : w = []
  · subst hwe
    rfl
  · rw [if_neg hwe]
    have hdrop : w.dropWhile wsChar = [] := dropWhile_ws w hw
    have hex : extractWord w = none := by
      unfold extractWord
      rw [hdrop]
    have hlex : lexWordTok [Tok.text w] = none := by
      unfold lexWordTok
      rw [hex]
    have hp : parsePara (paraFuel [Tok.text [' '], Tok.cmd ['c'], Tok.text w]) []
          [Tok.text [' '], Tok.cmd ['c'], Tok.text w]
        = ([.text [' '] false, .inlineCommand ['c'] none, .text w false], []) := by
      show (match lexWordTok [Tok.text w] with
        | some (w', rest') =>
          parsePara 2 (.inlineCommand ['c'] (some w') :: [.text [' '] false]) rest'
        | none =>
          parsePara 2 (.inlineCommand ['c'] none :: [.text [' '] false]) [Tok.text w])
        = ([.text [' '] false, .inlineCommand ['c'] none, .text w false], [])
      rw [hlex]
      rfl
    have hb : parseBlock [Tok.text [' '], Tok.cmd ['c'], Tok.text w]
        = ([.paragraph [.text [' '] false, .inlineCommand ['c'] none, .text w false]],
           []) := by
      show ([Block.paragraph (parsePara
              (paraFuel [Tok.text [' '], Tok.cmd ['c'], Tok.text w]) []
              [Tok.text [' '], Tok.cmd ['c'], Tok.text w]).1],
            (parsePara (paraFuel [Tok.text [' '], Tok.cmd ['c'], Tok.text w]) []
              [Tok.text [' '], Tok.cmd ['c'], Tok.text w]).2)
        = _
      rw [hp]
    unfold parseTokens
    rw [parseTopLoop_one _ _ _ hb]
    simp [hwe]

/-- Witness for the missing-argument theorem on the fixture of the
`InlineCommand2` test (`// \c` followed by one space). -/
theorem inline_command_missing_arg_witness :
    parseComment ("// \\c".toList ++ [' ']) =
      ⟨[.paragraph ([.text [' '] false, .inlineCommand ['c'] none] ++
          (if ([' '] : List Char) = [] then [] else [.text [' '] false]))]⟩ :=
  inline_command_missing_arg [' '] (by decide)

/-! ## Claim theorems: concrete behaviours -/

/-- C2: `\param` direction resolution.  `\param aaa` gives direction `In`
with the explicit flag unset; `[in]` gives `In` explicit; `[out]` gives
`Out` explicit; `[in,out]` and `[in, out]` (internal whitespace allowed)
give `InOut` explicit; in all five forms the following word `aaa` becomes
the parameter name of a `ParamCommand` node. -/
theorem param_direction_resolution :
    parseFullComment "// \\param aaa" =
      ⟨[.paragraph [.text " ".toList false],
        .paramCommand "param".toList .In false "aaa".toList []]⟩ ∧
    parseFullComment "// \\param [in] aaa" =
      ⟨[.paragraph [.text " ".toList false],
        .paramCommand "param".toList .In true "aaa".toList []]⟩ ∧
    parseFullComment "// \\param [out] aaa" =
      ⟨[.paragraph [.text " ".toList false],
        .paramCommand "param".toList .Out true "aaa".toList []]⟩ ∧
    parseFullComment "// \\param [in,out] aaa" =
      ⟨[.paragraph [.text " ".toList false],
        .paramCommand "param".toList .InOut true "aaa".toList []]⟩ ∧
    parseFullComment "// \\param [in, out] aaa" =
      ⟨[.paragraph [.text " ".toList false],
        .paramCommand "param".toList .InOut true "aaa".toList []]⟩ := by
  refine ⟨?_, ?_, ?_, ?_, ?_⟩ <;> rfl

/-- C4: a command whose name is not in the Command Table (`\unknown`
followed by a word) parses as an `InlineCommand` with zero arguments, and
the word that would have been its argument is emitted as the ordinary text
`" aaa"` immediately following it inside the same paragraph. -/
theorem unknown_command_keeps_word_as_text :
    parseFullComment "// \\unknown aaa\n" =
      ⟨[.paragraph [.text " ".toList false,
                    .inlineCommand "unknown".toList none,
                    .text " aaa".toList false]]⟩ := by
  rfl

/-- C6: a `\verbatim`/`\endverbatim` pair with no interior lines yields a
`VerbatimBlock` with zero captured lines; a pair with interior lines
`" Aaa"`, `""`, `" Bbb"` yields exactly those lines plus the partial
trailing line `" "` before the close marker, in order, unmodified. -/
theorem verbatim_block_lines :
    parseFullComment "// \\verbatim\\endverbatim\n" =
      ⟨[.paragraph [.text " ".toList false],
        .verbatimBlock "verbatim".toList []]⟩ ∧
    parseFullComment "// \\verbatim\n// Aaa\n//\n// Bbb\n// \\endverbatim\n" =
      ⟨[.paragraph [.text " ".toList false],
        .verbatimBlock "verbatim".toList
          [" Aaa".toList, [], " Bbb".toList, " ".toList]]⟩ := by
  exact ⟨rfl, rfl⟩

/-- C7: an HTML attribute written without an `=value` clause gets the
empty string as its value: `<a href>` yields an `HTMLStartTag` with tag
`a` and the single attribute pair `("href", "")`, and the same holds for
the unterminated variants `<a href` and `<a href `. -/
theorem html_attr_defaults_empty :
    parseFullComment "// <a href>" =
      ⟨[.paragraph [.text " ".toList false,
                    .htmlStartTag "a".toList [("href".toList, [])] false]]⟩ ∧
    parseFullComment "// <a href" =
      ⟨[.paragraph [.text " ".toList false,
                    .htmlStartTag "a".toList [("href".toList, [])] false]]⟩ ∧
    parseFullComment "// <a href " =
      ⟨[.paragraph [.text " ".toList false,
                    .htmlStartTag "a".toList [("href".toList, [])] false]]⟩ := by
  exact ⟨rfl, rfl, rfl⟩

end CommentParsing
